import Mathlib

/-!
Verification development for the subword-embedding core of this repository:
the `TokenSurvey` streaming frequency survey (`gensim/models/tokensurvey.py`),
the FastText keyed-vector store and its ngram hashing
(`gensim/models/fasttext.py`, `gensim/models/utils_any2vec.py`), and the
legacy packed-bucket-matrix migration (`_unpack` / `_unpack_copy`).

Conventions of the shallow embedding:
- Python `dict` / `collections.Counter` objects are modelled as insertion-ordered
  association lists (`List (String × Nat)` etc.); the first occurrence of a key
  shadows any later one, exactly as a dict has a single binding per key.  States
  that actually arise in Python always have nodup keys; theorems that need this
  carry it as a hypothesis.
- Code that can raise a Python exception is modelled in `Except String`/`Option`:
  an `Except.error`/`none` result models a raised exception.
- `float` arithmetic is modelled over `ℚ` (the claims under study are about
  which branch runs and which rows are combined, not about rounding).
- Matrices are lists of rows; the seeded NumPy generator that fills fresh rows
  is modelled as a stream `rand : Nat → row` giving the k-th row drawn after
  seeding (both `_unpack` variants seed the same generator the same way, so
  they share one stream).
-/

namespace Gensim

/-! ## Ordered tallies: the model of `collections.Counter` -/

/-- One tally: an insertion-ordered association list, the model of a
`collections.Counter` with `Nat` counts.  The first entry with a given key
shadows later ones (a real dict has unique keys). -/
abbrev Tally := List (String × Nat)

/-- Dict read `t[k]` with default 0 (`Counter.__getitem__`): the value at the
first entry with key `k`, or 0 when absent. -/
def countOf : Tally → String → Nat
  | [], _ => 0
  | p :: rest, k => if p.1 = k then p.2 else countOf rest k

/-- Dict write `t[k] = t.get(k, 0) + c`: add `c` to the first entry with key
`k`, or append a fresh entry at the end (dict insertion order). -/
def addTo : Tally → String → Nat → Tally
  | [], k, c => [(k, c)]
  | p :: rest, k, c => if p.1 = k then (p.1, p.2 + c) :: rest else p :: addTo rest k c

/-- `Counter.update(other)`: fold the entries of `other`, in order, into `t`. -/
def updateTally (t other : Tally) : Tally :=
  other.foldl (fun acc p => addTo acc p.1 p.2) t

/-- `sum(t.values())`. -/
def sumValues (t : Tally) : Nat :=
  (t.map Prod.snd).sum

/-- The count contributed by all entries of `o` carrying key `k`
(coincides with `countOf o k` when keys are nodup). -/
def entriesSum (o : Tally) (k : String) : Nat :=
  (o.map (fun p => if p.1 = k then p.2 else 0)).sum

/-- `Counter.most_common()`: stable sort by count, descending (Python's
`sorted(..., key=itemgetter(1), reverse=True)` is stable, so ties keep
insertion order).  Modelled as a stable insertion sort. -/
def insertDesc (p : String × Nat) : List (String × Nat) → List (String × Nat)
  | [] => [p]
  | q :: rest => if p.2 ≤ q.2 then q :: insertDesc p rest else p :: q :: rest

/-- See `insertDesc`: `most_common` of an ordered tally. -/
def mostCommon (t : Tally) : List (String × Nat) :=
  t.foldl (fun acc p => insertDesc p acc) []

/-! ## `TokenSurvey` (gensim/models/tokensurvey.py) -/

/-- The state of a `TokenSurvey`.  `prune_until` is the float fraction,
modelled over `ℚ`; `max_raw_int` is the highest plain-int token seen
(tokens are modelled as strings, so the scan always leaves it at -1). -/
structure TokenSurvey where
  raw_tally : Tally
  prune_at_size : Nat
  prune_until : ℚ
  tenured_tokens : List String
  corpus_count : Nat
  total_tokens : Nat
  max_raw_int : Int
  prune_count : Nat
  prune_floor : Nat
  prune_total : Nat
deriving Repr, DecidableEq

/-- `int(prune_until * prune_at_size)`: for the non-negative values that reach
it, `int()` truncation is the floor, and `⌊q·n⌋ = (q.num·n).fdiv q.den`
(computed this way so that it kernel-reduces on concrete inputs). -/
def pyIntMulNat (q : ℚ) (n : Nat) : Nat := ((q.num * n).fdiv q.den).toNat

/-- `tenure_token`: "Make a token immune to low-frequency-based pruning."
Adds the token to the `tenured_tokens` set. -/
def tenure_token (s : TokenSurvey) (token : String) : TokenSurvey :=
  { s with tenured_tokens :=
      if s.tenured_tokens.contains token then s.tenured_tokens
      else token :: s.tenured_tokens }

/-- `prune_token`: pop the token (KeyError when absent), add its count to
`prune_total`, raise `prune_floor` to it, bump `prune_count`. -/
def prune_token (s : TokenSurvey) (token : String) : Except String TokenSurvey :=
  match s.raw_tally.find? (fun p => p.1 == token) with
  | none => .error "KeyError"
  | some p => .ok { s with
      raw_tally := s.raw_tally.eraseP (fun q => q.1 == token)
      prune_total := s.prune_total + p.2
      prune_floor := max s.prune_floor p.2
      prune_count := s.prune_count + 1 }

/-- The low-frequency pruning loop of `update_with`: walk the reversed
`most_common` list; before each removal check whether the table already
reached `target`, and if so break.  The returned flag is true when the
candidate list was exhausted without the break firing (Python's `for ... else`
branch).  Note the loop never consults `tenured_tokens`. -/
def pruneLoop (s : TokenSurvey) (target : Nat) :
    List (String × Nat) → Except String (TokenSurvey × Bool)
  | [] => .ok (s, true)
  | (k, _) :: rest =>
    if s.raw_tally.length ≤ target then .ok (s, false)
    else match prune_token s k with
      | .error e => .error e
      | .ok s' => pruneLoop s' target rest

/-- One item of the `update_with` scan: tally the tokens, then, when the
distinct-key count reached `effective_prune_at_size`, run the low-frequency
prune (no `prune_callbacks` are registered in this model, matching the
default).  When the prune loop exhausts its candidates without reaching the
target, the source calls `logger.severe(...)`; `logging.Logger` has no method
named `severe`, so that call raises `AttributeError` and the subsequent
`effective_prune_at_size *= 2` line is never reached. -/
def surveyStep (acc : TokenSurvey × Nat) (tokens : List String) :
    Except String (TokenSurvey × Nat) :=
  let (s, eff) := acc
  let s1 := { s with raw_tally := tokens.foldl (fun t tok => addTo t tok 1) s.raw_tally }
  if s1.raw_tally.length ≥ eff then
    let target := pyIntMulNat s1.prune_until s1.prune_at_size
    match pruneLoop s1 target (mostCommon s1.raw_tally).reverse with
    | .error e => .error e
    | .ok (s2, exhausted) =>
      if exhausted then
        .error "AttributeError: Logger object has no attribute named severe"
      else .ok (s2, eff)
  else .ok (s1, eff)

/-- `update_with(corpus_iterable)` with no callbacks and no trim rule: scan
every token list, pruning at the ceiling; afterwards add the item and token
tallies to the cumulative counters and rescan `max_raw_int` (always -1 for
string tokens).  The final `effective > prune_at_size` re-warning would also
hit the nonexistent `logger.severe`. -/
def update_with (s : TokenSurvey) (corpus : List (List String)) :
    Except String TokenSurvey := do
  let st ← corpus.foldlM
    (fun (acc : (TokenSurvey × Nat) × Nat × Nat) tokens => do
      let inner ← surveyStep acc.1 tokens
      pure (inner, acc.2.1 + 1, acc.2.2 + tokens.length))
    ((s, s.prune_at_size), 0, 0)
  let ((s', eff), item_count, total_tokens) := st
  if s.prune_at_size < eff then
    .error "AttributeError: Logger object has no attribute named severe"
  else
    .ok { s' with
      corpus_count := s'.corpus_count + item_count
      total_tokens := s'.total_tokens + total_tokens
      max_raw_int := -1 }

/-- `combine_survey(other)`: tally the other survey's counts into this one,
sum `corpus_count`, recompute `total_tokens` from the combined tally, sum
`prune_count`/`prune_total`, and take the max of `prune_floor`. -/
def combine_survey (s other : TokenSurvey) : TokenSurvey :=
  let tally := updateTally s.raw_tally other.raw_tally
  { s with
    raw_tally := tally
    corpus_count := s.corpus_count + other.corpus_count
    total_tokens := sumValues tally
    prune_count := s.prune_count + other.prune_count
    prune_floor := max s.prune_floor other.prune_floor
    prune_total := s.prune_total + other.prune_total }

/-! ## Legacy packed-matrix migration (`_unpack`, `_unpack_copy`)

Rows are abstract (`α`); the seeded generator is the stream `rand`, whose
`k`-th row is `rand k` (both functions reseed identically, so one stream
serves both).  `hash2index` is the items list of the legacy dict (distinct
keys in real inputs). -/

/-- `_pad_random(m, new_rows, rand)`: append `new_rows` freshly drawn rows to
`m` (`vstack([m, suffix])`); the seeded generator is the stream `rand`. -/
def _pad_random {α : Type} (m : List α) (new_rows : Nat) (rand : Nat → α) : List α :=
  m ++ (List.range new_rows).map rand

/-- The swap dict of `_unpack`:
`swap = {h: i for (h, i) in hash2index.items() if h < i < orig_rows}`, then
`swap.update({h: i for (h, i) in hash2index.items() if h >= orig_rows})`.
The two comprehensions select disjoint key ranges (`h < orig_rows` in the
first, `h ≥ orig_rows` in the second), so on a distinct-keyed items list the
resulting dict iterates as: first run, then second, each in map order.
Note the second selector tests `h`, not `i`. -/
def swapPairs (hash2index : List (Nat × Nat)) (orig_rows : Nat) :
    List (Nat × Nat) :=
  hash2index.filter (fun p => decide (p.1 < p.2) && decide (p.2 < orig_rows))
    ++ hash2index.filter (fun p => decide (orig_rows ≤ p.1))

/-- `m[[h, i]] = m[[i, h]]` — swap rows `h` and `i` in place; NumPy fancy
indexing raises `IndexError` when a row is out of range. -/
def swapRowsE {α : Type} (m : List α) (h i : Nat) : Except String (List α) :=
  match m[h]?, m[i]? with
  | some a, some b => .ok ((m.set h b).set i a)
  | _, _ => .error "IndexError"

/-- Total version of the row swap used to state what the fold computes
(out-of-range indices leave the matrix unchanged; the theorems and the
`Except` bridge only ever use it in bounds). -/
def swapRowsP {α : Type} (m : List α) (h i : Nat) : List α :=
  match m[h]?, m[i]? with
  | some a, some b => (m.set h b).set i a
  | _, _ => m

/-- One in-place swap per pair, applied left to right. -/
def applySwaps {α : Type} (S : List (Nat × Nat)) (m : List α) : List α :=
  S.foldl (fun acc p => swapRowsP acc p.1 p.2) m

/-- `_unpack(m, num_rows, hash2index, seed)`: already-natural input is
returned unchanged; `assert num_rows > orig_rows` otherwise; pad with
`num_rows - orig_rows` fresh random rows; then, for each pair of the swap
dict in order, `assert h != i` and swap rows `h` and `i`. -/
def _unpack {α : Type} (m : List α) (num_rows : Nat)
    (hash2index : List (Nat × Nat)) (rand : Nat → α) :
    Except String (List α) :=
  if m.length = num_rows then .ok m
  else if num_rows ≤ m.length then .error "AssertionError: num_rows > rows"
  else
    (swapPairs hash2index m.length).foldlM
      (fun acc p =>
        if p.1 = p.2 then .error "AssertionError: h != i"
        else swapRowsE acc p.1 p.2)
      (_pad_random m (num_rows - m.length) rand)

/-- `_unpack_copy(m, num_rows, hash2index, seed)`: same early return and
assert; then allocate a fresh all-random `num_rows`-row matrix
(`_pad_random` of an empty matrix — this draws `num_rows` rows, not
`num_rows - orig_rows`), and assign `n[src] = m[dst]` for every map item. -/
def _unpack_copy {α : Type} (m : List α) (num_rows : Nat)
    (hash2index : List (Nat × Nat)) (rand : Nat → α) :
    Except String (List α) :=
  if m.length = num_rows then .ok m
  else if num_rows ≤ m.length then .error "AssertionError: num_rows > rows"
  else
    hash2index.foldlM
      (fun acc p =>
        match acc[p.1]?, m[p.2]? with
        | some _, some v => .ok (acc.set p.1 v)
        | _, _ => .error "IndexError")
      (_pad_random ([] : List α) num_rows rand)

/-- What each output row holds after applying a row-disjoint swap list `S`
to `m`: the partner row for a swapped row, the original row otherwise. -/
def swapSpec {α : Type} (S : List (Nat × Nat)) (m : List α) (j : Nat) :
    Option α :=
  match S.find? (fun p => p.1 == j) with
  | some p => m[p.2]?
  | none =>
    match S.find? (fun p => p.2 == j) with
    | some p => m[p.1]?
    | none => m[j]?

/-- No row index is shared between two different pairs of the list. -/
abbrev RowDisjoint (S : List (Nat × Nat)) : Prop :=
  S.Pairwise (fun p q => p.1 ≠ q.1 ∧ p.1 ≠ q.2 ∧ p.2 ≠ q.1 ∧ p.2 ≠ q.2)

/-- The random stream used in the concrete migration runs. -/
def cexRand : Nat → Nat := fun k => 100 + k

/-! ## Concrete survey states used by the evaluation theorems -/

/-- A fresh survey with `prune_at_size=3, prune_until=0.5` (0.5 is a dyadic
rational, so the float product `0.5 * 3` and its `ℚ` model agree exactly). -/
def c2base : TokenSurvey :=
  { raw_tally := [], prune_at_size := 3, prune_until := mkRat 1 2, tenured_tokens := []
    corpus_count := 0, total_tokens := 0, max_raw_int := -1
    prune_count := 0, prune_floor := 0, prune_total := 0 }

/-- A fresh survey with `prune_at_size=2, prune_until=0.25` (dyadic, exact in
float), so the prune target is `int(0.25 * 2) = 0`. -/
def c8base : TokenSurvey :=
  { raw_tally := [], prune_at_size := 2, prune_until := mkRat 1 4, tenured_tokens := []
    corpus_count := 0, total_tokens := 0, max_raw_int := -1
    prune_count := 0, prune_floor := 0, prune_total := 0 }

/-! ## Ngram extraction and hashing

`ft_ngram_hashes` (both the `utils_any2vec.py` and the `fasttext.py` copy —
their bodies are identical) delegates ngram extraction and hashing to
`compute_ngrams_bytes` / `ft_hash_bytes` / `compute_ngrams` /
`ft_hash_broken`, which live in the Cython module
`gensim.models._utils_any2vec`, not under `src/`; those four are therefore
modelled from the spec (§4.1). -/

/-- Modelled from the spec: "encode to raw bytes" — the UTF-8 encoding of one
character, as a list of byte values. -/
def utf8Bytes (c : Char) : List Nat :=
  let v := c.toNat
  if v < 128 then [v]
  else if v < 2048 then [192 ||| (v >>> 6), 128 ||| (v &&& 63)]
  else if v < 65536 then
    [224 ||| (v >>> 12), 128 ||| ((v >>> 6) &&& 63), 128 ||| (v &&& 63)]
  else
    [240 ||| (v >>> 18), 128 ||| ((v >>> 12) &&& 63),
     128 ||| ((v >>> 6) &&& 63), 128 ||| (v &&& 63)]

/-- Modelled from the spec: "bracket the word with boundary markers". -/
def bracketChars (word : String) : List Char :=
  '<' :: word.data ++ ['>']

/-- Take whole character chunks from the front until exactly `n` bytes are
collected; `none` when the chunks run out first or a chunk straddles the
byte budget (the substring would not end on a character boundary). -/
def takeBytes : List (List Nat) → Nat → Option (List Nat)
  | _, 0 => some []
  | [], _ + 1 => none
  | c :: rest, n + 1 =>
    if c.length ≤ n + 1 then (takeBytes rest (n + 1 - c.length)).map (c ++ ·)
    else none

/-- Modelled from the spec: `compute_ngrams_bytes` — "extract every contiguous
byte-aligned substring of length minN..maxN whose boundaries fall on valid
character boundaries", over the UTF-8 bytes of the bracketed word; order is
ascending ngram length, then left-to-right start position. -/
def compute_ngrams_bytes (word : String) (minn maxn : Nat) : List (List Nat) :=
  let chunks := (bracketChars word).map utf8Bytes
  (List.range' minn (maxn + 1 - minn)).flatMap fun n =>
    (List.range chunks.length).filterMap fun i => takeBytes (chunks.drop i) n

/-- Modelled from the spec: the legacy extractor `compute_ngrams` operates on
"decoded-character ngrams": every contiguous character substring of the
bracketed word of length minN..maxN (same enumeration order). -/
def compute_ngrams (word : String) (minn maxn : Nat) : List (List Char) :=
  let cs := bracketChars word
  (List.range' minn (maxn + 1 - minn)).flatMap fun n =>
    (List.range (cs.length + 1 - n)).map fun i => (cs.drop i).take n

/-- Modelled from the spec: `ft_hash_bytes` — "classic 32-bit FNV-1a over raw
ngram bytes — seed = 2166136261; for each byte b:
`h = (h XOR b); h = (h * 16777619) mod 2^32`". -/
def ft_hash_bytes (bytes : List Nat) : Nat :=
  bytes.foldl (fun h b => ((h ^^^ b) * 16777619) % 4294967296) 2166136261

/-- Python `a % b`: raises `ZeroDivisionError` when `b = 0` (for the
non-negative operands that occur here). -/
def pymod (a b : Nat) : Option Nat :=
  if b = 0 then none else some (a % b)

/-- A Python list comprehension whose element expression may raise: `none` as
soon as one element does (structural version of `List.mapM` over `Option`,
kept explicit for clean induction and kernel reduction). -/
def optionMap (f : α → Option β) : List α → Option (List β)
  | [] => some []
  | a :: as =>
    match f a, optionMap f as with
    | some b, some bs => some (b :: bs)
    | _, _ => none

/-- `ft_ngram_hashes(word, minn, maxn, num_buckets, fb_compatible)`
(`utils_any2vec.py` and `fasttext.py`): hash every extracted ngram and reduce
it mod `num_buckets`.  The spec gives no formula for the legacy
`ft_hash_broken` (also absent from `src/`), so it is threaded through as the
parameter `hb`, quantifying the theorems over every possible broken hash. -/
def ft_ngram_hashes (hb : List Char → Nat) (word : String)
    (minn maxn num_buckets : Nat) (fb_compatible : Bool) : Option (List Nat) :=
  if fb_compatible then
    optionMap (fun n => pymod (ft_hash_bytes n) num_buckets)
      (compute_ngrams_bytes word minn maxn)
  else
    optionMap (fun n => pymod (hb n) num_buckets)
      (compute_ngrams word minn maxn)

/-- A stand-in broken hash used to close concrete statements. -/
def zeroBrokenHash : List Char → Nat := fun _ => 0

/-! ## The FastText keyed-vector store (gensim/models/fasttext.py) -/

/-- A row of a NumPy matrix modelled as a list of rationals; `npRow m i d`
reads row `i` (`d` = the column count, `shape[1]`).  Out-of-range NumPy
indexing raises; theorems restrict to in-bounds states, where the default is
never taken. -/
def npRow (m : List (List ℚ)) (i : Nat) (d : Nat) : List ℚ :=
  m.getD i (List.replicate d 0)

/-- NumPy elementwise `+` of two equal-length vectors (shape mismatch raises;
theorems restrict to well-formed states, where both have length `d`). -/
def vecAdd (a b : List ℚ) : List ℚ := List.zipWith (· + ·) a b

/-- Sum of a list of vectors, written spec-side: `Σ rows` starting from the
zero vector of dimension `d`. -/
def vecSumZ (d : Nat) (rows : List (List ℚ)) : List ℚ :=
  rows.foldr vecAdd (List.replicate d 0)

/-- The state of a `FastTextKeyedVectors` store.  `vectors` is the composite
matrix, `vectors_vocab` the own-token matrix, `vectors_ngrams` the bucket
matrix; `vector_size` is the shared column count (`shape[1]`) of the
matrices; `vocab` maps each word to its index and `index2key` is the inverse
enumeration. -/
structure FastTextKeyedVectors where
  vocab : List (String × Nat)
  index2key : List String
  vectors : List (List ℚ)
  vectors_vocab : List (List ℚ)
  vectors_ngrams : List (List ℚ)
  buckets_word : List (Nat × List Nat)
  bucket : Nat
  min_n : Nat
  max_n : Nat
  compatible_hash : Bool
  vector_size : Nat
deriving Repr, DecidableEq

/-- `FastTextKeyedVectors.__contains__`: the body is `return True` — the
docstring notes "This method **always** returns True, because of the way
FastText works." -/
def ftContains (_s : FastTextKeyedVectors) (_word : String) : Bool := true

/-- `FastTextKeyedVectors.get_vector(word)` (default `use_norm=False`; the
L2-normalising variant needs square roots and is outside this rational-valued
model).  A word found in `vocab` takes the base-class path — that code is not
under `src/`, so it is modelled from the spec (§4.2 `lookup`): return the
word's row of the composite matrix.  Otherwise, with `bucket == 0`, raise
`KeyError`; otherwise hash the ngrams, return the zero vector when there are
none, else sum the selected `vectors_ngrams` rows and divide by their
number. -/
def get_vector (hb : List Char → Nat) (s : FastTextKeyedVectors)
    (word : String) : Except String (List ℚ) :=
  match s.vocab.find? (fun p => p.1 == word) with
  | some p => .ok (npRow s.vectors p.2 s.vector_size)
  | none =>
    if s.bucket = 0 then
      .error "KeyError: cannot calculate vector for OOV word without ngrams"
    else
      match ft_ngram_hashes hb word s.min_n s.max_n s.bucket s.compatible_hash with
      | none => .error "ZeroDivisionError"
      | some ngram_hashes =>
        if ngram_hashes.length = 0 then .ok (List.replicate s.vector_size 0)
        else .ok
          ((ngram_hashes.foldl
              (fun acc nh => vecAdd acc (npRow s.vectors_ngrams nh s.vector_size))
              (List.replicate s.vector_size 0)).map
            (fun x => x / (ngram_hashes.length : ℚ)))

/-- `FastTextKeyedVectors.adjust_vectors`: with `bucket == 0` return
immediately (leaving `vectors` as it was); otherwise copy `vectors_vocab`
into `vectors` and, for each enumerated vocabulary word, add the
`vectors_ngrams` rows of its ngram hashes and divide by their number plus
one.  (The source mutates the copied row in place; per enumerated index that
equals the closed formula used here.  The enumeration assumes the structural
invariant `len(index2key) == len(vectors_vocab)` of every real store.) -/
def adjust_vectors (hb : List Char → Nat) (s : FastTextKeyedVectors) :
    Option FastTextKeyedVectors :=
  if s.bucket = 0 then some s
  else
    (optionMap (fun iw =>
      (ft_ngram_hashes hb iw.2 s.min_n s.max_n s.bucket s.compatible_hash).map
        fun ngram_hashes =>
          (ngram_hashes.foldl
              (fun acc nh => vecAdd acc (npRow s.vectors_ngrams nh s.vector_size))
              (npRow s.vectors_vocab iw.1 s.vector_size)).map
            (fun x => x / ((ngram_hashes.length : ℚ) + 1)))
      s.index2key.enum).map
      fun newVecs => { s with vectors := newVecs }

/-- `_process_fasttext_vocab(iterable, min_n, max_n, num_buckets,
compatible_hash)`: map every vocab index to the ngram-hash array of its word;
with `num_buckets == 0`, map every index to the empty array without
hashing. -/
def _process_fasttext_vocab (hb : List Char → Nat)
    (iterable : List (String × Nat)) (min_n max_n num_buckets : Nat)
    (compatible_hash : Bool) : Option (List (Nat × List Nat)) :=
  if num_buckets = 0 then some (iterable.map fun p => (p.2, []))
  else
    optionMap (fun p =>
      (ft_ngram_hashes hb p.1 min_n max_n num_buckets compatible_hash).map
        fun wi => (p.2, wi)) iterable

/-- `FastTextKeyedVectors.update_ngrams_weights(seed, old_vocab_len)`:
rebuild `buckets_word` over the whole (grown) vocabulary, then append
`len(vocab) - old_vocab_len` fresh random rows to `vectors_vocab` via
`_pad_random`.  `vectors_ngrams` is not touched. -/
def update_ngrams_weights (hb : List Char → Nat) (s : FastTextKeyedVectors)
    (rand : Nat → List ℚ) (old_vocab_len : Nat) : Option FastTextKeyedVectors :=
  (_process_fasttext_vocab hb s.vocab s.min_n s.max_n s.bucket
      s.compatible_hash).map
    fun bw =>
      { s with
        buckets_word := bw
        vectors_vocab :=
          _pad_random s.vectors_vocab (s.vocab.length - old_vocab_len) rand }

/-! ## Concrete stores used by the evaluation/witness theorems -/

/-- A two-word store with two buckets, 1-char ngrams, dimension 1. -/
def w6store : FastTextKeyedVectors :=
  { vocab := [("a", 0), ("b", 1)], index2key := ["a", "b"], vectors := []
    vectors_vocab := [[1], [2]], vectors_ngrams := [[5], [6]], buckets_word := []
    bucket := 2, min_n := 1, max_n := 1, compatible_hash := true, vector_size := 1 }

/-- A constant random-row stream of dimension 1. -/
def w6rand : Nat → List ℚ := fun _ => [7]

/-- `w6store` after growing by one word (`old_vocab_len = 1`): `buckets_word`
rebuilt, one fresh row appended to `vectors_vocab`, `vectors_ngrams`
untouched. -/
def w6store' : FastTextKeyedVectors :=
  { w6store with
    buckets_word := [(0, [1, 0, 1]), (1, [1, 1, 1])]
    vectors_vocab := [[1], [2], [7]] }

/-- A store with subword features disabled (`bucket = 0`) whose composite
matrix differs from its own-token matrix. -/
def c4store : FastTextKeyedVectors :=
  { vocab := [("a", 0)], index2key := ["a"], vectors := [[1]]
    vectors_vocab := [[2]], vectors_ngrams := [], buckets_word := []
    bucket := 0, min_n := 1, max_n := 1, compatible_hash := true, vector_size := 1 }

/-- An empty-vocabulary store with two buckets, used to witness the OOV
lookup behaviour. -/
def w5store : FastTextKeyedVectors :=
  { vocab := [], index2key := [], vectors := [], vectors_vocab := []
    vectors_ngrams := [[5], [6]], buckets_word := [], bucket := 2
    min_n := 1, max_n := 1, compatible_hash := true, vector_size := 1 }

/-! ## Tally lemmas -/

theorem countOf_cons (p : String × Nat) (rest : Tally) (k : String) :
    countOf (p :: rest) k = if p.1 = k then p.2 else countOf rest k := rfl

theorem entriesSum_cons (p : String × Nat) (rest : Tally) (k : String) :
    entriesSum (p :: rest) k = (if p.1 = k then p.2 else 0) + entriesSum rest k := by
  simp [entriesSum]

theorem countOf_addTo (t : Tally) (k : String) (c : Nat) (k' : String) :
    countOf (addTo t k c) k' = countOf t k' + if k' = k then c else 0 := by
  induction t with
  | nil =>
    simp only [addTo, countOf]
    by_cases h : k' = k
    · subst h; rw [if_pos rfl]; omega
    · rw [if_neg (fun hh : k = k' => h hh.symm), if_neg h]
  | cons p rest ih =>
    by_cases hpk : p.1 = k
    · simp only [addTo, if_pos hpk, countOf_cons]
      by_cases h' : p.1 = k'
      · rw [if_pos h', if_pos h']
        have hk : k' = k := by rw [← h', hpk]
        rw [if_pos hk]
      · rw [if_neg h', if_neg h']
        have hk : ¬ k' = k := fun hh => h' (by rw [hpk, hh])
        rw [if_neg hk]; omega
    · simp only [addTo, if_neg hpk, countOf_cons]
      by_cases h' : p.1 = k'
      · rw [if_pos h', if_pos h']
        have hk : ¬ k' = k := fun hh => hpk (h'.trans hh)
        rw [if_neg hk]; omega
      · rw [if_neg h', if_neg h', ih]

theorem countOf_updateTally (t o : Tally) (k : String) :
    countOf (updateTally t o) k = countOf t k + entriesSum o k := by
  induction o generalizing t with
  | nil => simp [updateTally, entriesSum]
  | cons p rest ih =>
    show countOf (updateTally (addTo t p.1 p.2) rest) k = _
    rw [ih (addTo t p.1 p.2), countOf_addTo, entriesSum_cons]
    by_cases h : p.1 = k
    · rw [if_pos h, if_pos h.symm]
      omega
    · rw [if_neg h, if_neg (fun hk : k = p.1 => h hk.symm)]
      omega

theorem entriesSum_eq_zero_of_not_mem (o : Tally) (k : String)
    (h : ¬ k ∈ o.map Prod.fst) : entriesSum o k = 0 := by
  induction o with
  | nil => rfl
  | cons p rest ih =>
    simp only [List.map_cons, List.mem_cons] at h
    push_neg at h
    rw [entriesSum_cons, if_neg (fun hpk : p.1 = k => h.1 hpk.symm), ih h.2]

theorem entriesSum_eq_countOf (o : Tally) (k : String)
    (h : (o.map Prod.fst).Nodup) : entriesSum o k = countOf o k := by
  induction o with
  | nil => rfl
  | cons p rest ih =>
    simp only [List.map_cons, List.nodup_cons] at h
    rw [entriesSum_cons, countOf_cons]
    by_cases hpk : p.1 = k
    · subst hpk
      rw [if_pos rfl, if_pos rfl, entriesSum_eq_zero_of_not_mem rest p.1 h.1]; omega
    · rw [if_neg hpk, if_neg hpk, Nat.zero_add]
      exact ih h.2

theorem mem_keys_addTo (t : Tally) (k : String) (c : Nat) (x : String)
    (hx : x ∈ (addTo t k c).map Prod.fst) : x ∈ t.map Prod.fst ∨ x = k := by
  induction t with
  | nil => simpa [addTo] using hx
  | cons p rest ih =>
    simp only [addTo] at hx
    by_cases h : p.1 = k
    · rw [if_pos h] at hx
      simp only [List.map_cons, List.mem_cons] at hx ⊢
      tauto
    · rw [if_neg h] at hx
      simp only [List.map_cons, List.mem_cons] at hx ⊢
      rcases hx with hx | hx
      · tauto
      · rcases ih hx with h' | h' <;> tauto

theorem nodupKeys_addTo (t : Tally) (k : String) (c : Nat)
    (h : (t.map Prod.fst).Nodup) : ((addTo t k c).map Prod.fst).Nodup := by
  induction t with
  | nil => simp [addTo]
  | cons p rest ih =>
    simp only [List.map_cons, List.nodup_cons] at h
    simp only [addTo]
    by_cases hpk : p.1 = k
    · rw [if_pos hpk]
      simp only [List.map_cons, List.nodup_cons]
      exact ⟨h.1, h.2⟩
    · rw [if_neg hpk]
      simp only [List.map_cons, List.nodup_cons]
      refine ⟨fun hmem => ?_, ih h.2⟩
      rcases mem_keys_addTo rest k c p.1 hmem with h' | h'
      · exact h.1 h'
      · exact hpk h'

theorem nodupKeys_updateTally (t o : Tally)
    (h : (t.map Prod.fst).Nodup) : ((updateTally t o).map Prod.fst).Nodup := by
  induction o generalizing t with
  | nil => exact h
  | cons p rest ih =>
    simp only [updateTally, List.foldl_cons] at *
    exact ih (addTo t p.1 p.2) (nodupKeys_addTo t p.1 p.2 h)

theorem sumValues_addTo (t : Tally) (k : String) (c : Nat) :
    sumValues (addTo t k c) = sumValues t + c := by
  induction t with
  | nil => simp [addTo, sumValues]
  | cons p rest ih =>
    simp only [addTo]
    by_cases h : p.1 = k
    · rw [if_pos h]
      simp [sumValues]
      omega
    · rw [if_neg h]
      simp only [sumValues, List.map_cons, List.sum_cons] at *
      omega

theorem sumValues_updateTally (t o : Tally) :
    sumValues (updateTally t o) = sumValues t + sumValues o := by
  induction o generalizing t with
  | nil => simp [updateTally, sumValues]
  | cons p rest ih =>
    simp only [updateTally, List.foldl_cons] at *
    rw [ih (addTo t p.1 p.2), sumValues_addTo]
    simp only [sumValues, List.map_cons, List.sum_cons]
    omega

theorem countOf_combine_survey (x y : TokenSurvey)
    (hy : (y.raw_tally.map Prod.fst).Nodup) (k : String) :
    countOf (combine_survey x y).raw_tally k
      = countOf x.raw_tally k + countOf y.raw_tally k := by
  simp only [combine_survey]
  rw [countOf_updateTally, entriesSum_eq_countOf _ _ hy]

/-- C7: `combine_survey` is commutative and associative over the
count-bearing fields: for surveys with well-formed (nodup-keyed) tallies,
the per-token counts and the `corpus_count`, `total_tokens`, `prune_count`,
`prune_floor` and `prune_total` counters agree between `merge(a,b)` and
`merge(b,a)`, and among `merge(merge(a,b),c)`, `merge(a,merge(b,c))` and
`merge(b,merge(a,c))`. -/
theorem combine_survey_comm_assoc (a b c : TokenSurvey)
    (ha : (a.raw_tally.map Prod.fst).Nodup)
    (hb : (b.raw_tally.map Prod.fst).Nodup)
    (hc : (c.raw_tally.map Prod.fst).Nodup) :
    (∀ tok, countOf (combine_survey a b).raw_tally tok
        = countOf (combine_survey b a).raw_tally tok)
    ∧ (combine_survey a b).corpus_count = (combine_survey b a).corpus_count
    ∧ (combine_survey a b).total_tokens = (combine_survey b a).total_tokens
    ∧ (combine_survey a b).prune_count = (combine_survey b a).prune_count
    ∧ (combine_survey a b).prune_floor = (combine_survey b a).prune_floor
    ∧ (combine_survey a b).prune_total = (combine_survey b a).prune_total
    ∧ (∀ tok,
        countOf (combine_survey (combine_survey a b) c).raw_tally tok
          = countOf (combine_survey a (combine_survey b c)).raw_tally tok
        ∧ countOf (combine_survey a (combine_survey b c)).raw_tally tok
          = countOf (combine_survey b (combine_survey a c)).raw_tally tok)
    ∧ (combine_survey (combine_survey a b) c).corpus_count
        = (combine_survey a (combine_survey b c)).corpus_count
    ∧ (combine_survey (combine_survey a b) c).total_tokens
        = (combine_survey a (combine_survey b c)).total_tokens
    ∧ (combine_survey (combine_survey a b) c).prune_count
        = (combine_survey a (combine_survey b c)).prune_count
    ∧ (combine_survey (combine_survey a b) c).prune_floor
        = (combine_survey a (combine_survey b c)).prune_floor
    ∧ (combine_survey (combine_survey a b) c).prune_total
        = (combine_survey a (combine_survey b c)).prune_total
    ∧ (combine_survey a (combine_survey b c)).corpus_count
        = (combine_survey b (combine_survey a c)).corpus_count
    ∧ (combine_survey a (combine_survey b c)).total_tokens
        = (combine_survey b (combine_survey a c)).total_tokens
    ∧ (combine_survey a (combine_survey b c)).prune_count
        = (combine_survey b (combine_survey a c)).prune_count
    ∧ (combine_survey a (combine_survey b c)).prune_floor
        = (combine_survey b (combine_survey a c)).prune_floor
    ∧ (combine_survey a (combine_survey b c)).prune_total
        = (combine_survey b (combine_survey a c)).prune_total := by
  have hab : ((combine_survey a b).raw_tally.map Prod.fst).Nodup :=
    nodupKeys_updateTally _ _ ha
  have hbc : ((combine_survey b c).raw_tally.map Prod.fst).Nodup :=
    nodupKeys_updateTally _ _ hb
  have hac : ((combine_survey a c).raw_tally.map Prod.fst).Nodup :=
    nodupKeys_updateTally _ _ ha
  refine ⟨?_, ?_, ?_, ?_, ?_, ?_, ?_, ?_, ?_, ?_, ?_, ?_, ?_, ?_, ?_, ?_, ?_⟩
  · intro tok
    rw [countOf_combine_survey a b hb, countOf_combine_survey b a ha, Nat.add_comm]
  · simp [combine_survey, Nat.add_comm]
  · simp only [combine_survey]
    rw [sumValues_updateTally, sumValues_updateTally, Nat.add_comm]
  · simp [combine_survey, Nat.add_comm]
  · simp [combine_survey, Nat.max_comm]
  · simp [combine_survey, Nat.add_comm]
  · intro tok
    constructor
    · rw [countOf_combine_survey _ c hc, countOf_combine_survey a b hb,
        countOf_combine_survey a _ hbc, countOf_combine_survey b c hc, Nat.add_assoc]
    · rw [countOf_combine_survey a _ hbc, countOf_combine_survey b c hc,
        countOf_combine_survey b _ hac, countOf_combine_survey a c hc]
      omega
  · simp [combine_survey, Nat.add_assoc]
  · simp only [combine_survey]
    rw [sumValues_updateTally, sumValues_updateTally, sumValues_updateTally,
      sumValues_updateTally, Nat.add_assoc]
  · simp [combine_survey, Nat.add_assoc]
  · simp [combine_survey, Nat.max_assoc]
  · simp [combine_survey, Nat.add_assoc]
  · simp [combine_survey]; omega
  · simp only [combine_survey]
    rw [sumValues_updateTally, sumValues_updateTally, sumValues_updateTally,
      sumValues_updateTally]
    omega
  · simp [combine_survey]; omega
  · simp only [combine_survey]
    rw [Nat.max_left_comm]
  · simp [combine_survey]; omega

/-- Witness for C7 at concrete surveys. -/
theorem combine_survey_comm_assoc_witness :
    (([("x", 2)] : Tally).map Prod.fst).Nodup
    ∧ (([("x", 1), ("y", 3)] : Tally).map Prod.fst).Nodup
    ∧ (([("z", 1)] : Tally).map Prod.fst).Nodup
    ∧ (∀ tok,
        countOf (combine_survey { c2base with raw_tally := [("x", 2)] }
          { c8base with raw_tally := [("x", 1), ("y", 3)] }).raw_tally tok
        = countOf (combine_survey { c8base with raw_tally := [("x", 1), ("y", 3)] }
          { c2base with raw_tally := [("x", 2)] }).raw_tally tok) :=
  ⟨by decide, by decide, by decide,
    (combine_survey_comm_assoc
      { c2base with raw_tally := [("x", 2)] }
      { c8base with raw_tally := [("x", 1), ("y", 3)] }
      { c2base with raw_tally := [("z", 1)] }
      (by decide) (by decide) (by decide)).1⟩

/-- C2 (code bug): the low-frequency pruning loop inside `update_with` never
consults `tenured_tokens`, so a tenured token with the lowest count is
removed.  Concretely: tenure "a" on a survey with `prune_at_size=3,
prune_until=0.5`, then scan `[["b"],["c"],["b"],["c"],["a"]]`; the prune at
the fifth item removes "a" (and "c"), leaving count 0 for the tenured "a",
contradicting `tenure_token`'s docstring ("immune to low-frequency-based
pruning") and the spec's tenure-protection property. -/
theorem tenured_token_pruned_by_update_with :
    (tenure_token c2base "a").tenured_tokens.contains "a" = true
    ∧ ((update_with (tenure_token c2base "a")
          [["b"], ["c"], ["b"], ["c"], ["a"]]).toOption.map
        (fun s => (countOf s.raw_tally "a", s.prune_count, s.prune_total)))
      = some (0, 2, 3) := by
  exact ⟨by decide, by decide⟩

/-- C8 (code bug): when the pruning loop exhausts its candidates without
reaching the target, the source calls `logger.severe(...)` before doubling
the ceiling; `logging.Logger` has no method named `severe`, so the call
raises `AttributeError` and the scan aborts instead of continuing.  Concrete
run: `prune_at_size=2, prune_until=0.25` (target 0) over `[["a"],["b"]]`. -/
theorem prune_overload_raises_attribute_error :
    update_with c8base [["a"], ["b"]]
      = Except.error "AttributeError: Logger object has no attribute named severe" := by
  rfl

/-! ## Ngram hashing theorems -/

theorem optionMap_pymod_zero {α : Type} (f : α → Nat) (l : List α) :
    optionMap (fun x => pymod (f x) 0) l
      = if l.isEmpty then some [] else none := by
  cases l with
  | nil => rfl
  | cons a as => simp [optionMap, pymod]

/-- C3 (amended): with `num_buckets = 0`, `ft_ngram_hashes` does not return
the empty list unconditionally: the per-ngram `% num_buckets` raises
`ZeroDivisionError` as soon as at least one ngram is extracted; only a word
yielding no ngrams gives the empty list.  This holds in both hash modes, for
every broken hash.  (The callers in `fasttext.py` guard `bucket == 0` before
calling, which is where the spec's "disabled entirely" behaviour actually
lives.) -/
theorem ft_ngram_hashes_bucket_zero (hb : List Char → Nat) (word : String)
    (minn maxn : Nat) :
    ft_ngram_hashes hb word minn maxn 0 true
        = (if (compute_ngrams_bytes word minn maxn).isEmpty then some [] else none)
    ∧ ft_ngram_hashes hb word minn maxn 0 false
        = (if (compute_ngrams word minn maxn).isEmpty then some [] else none) := by
  constructor
  · exact optionMap_pymod_zero (fun n => ft_hash_bytes n) _
  · exact optionMap_pymod_zero hb _

/-- C3 counterexample: at `word="cat", minN=maxN=3, B=0`, Compatible mode,
three ngrams (`"<ca","cat","at>"`) are extracted, so the hash list
comprehension evaluates `hash % 0` and raises `ZeroDivisionError` (modelled
as `none`) instead of returning the empty list. -/
theorem ft_ngram_hashes_bucket_zero_counterexample :
    ft_ngram_hashes zeroBrokenHash "cat" 3 3 0 true = none
    ∧ (compute_ngrams_bytes "cat" 3 3).length = 3 :=
  ⟨by decide, by decide⟩

theorem optionMap_pymod_pos {α : Type} (f : α → Nat) (B : Nat) (hB : B ≠ 0)
    (l : List α) :
    optionMap (fun x => pymod (f x) B) l = some (l.map fun x => f x % B) := by
  induction l with
  | nil => rfl
  | cons a as ih =>
    simp only [optionMap, ih, List.map_cons]
    simp [pymod, hB]

theorem ft_ngram_hashes_pos (hb : List Char → Nat) (word : String)
    (minn maxn B : Nat) (fb : Bool) (hB : B ≠ 0) :
    ft_ngram_hashes hb word minn maxn B fb
      = some (if fb then
          (compute_ngrams_bytes word minn maxn).map fun n => ft_hash_bytes n % B
        else (compute_ngrams word minn maxn).map fun n => hb n % B) := by
  cases fb with
  | true => exact optionMap_pymod_pos (fun n => ft_hash_bytes n) B hB _
  | false => exact optionMap_pymod_pos hb B hB _

/-! ## Vector algebra helpers for the composite/lookup formulas -/

theorem vecAdd_assoc (a b c : List ℚ) :
    vecAdd (vecAdd a b) c = vecAdd a (vecAdd b c) := by
  induction a generalizing b c with
  | nil => simp [vecAdd]
  | cons x xs ih =>
    cases b with
    | nil => simp [vecAdd]
    | cons y ys =>
      cases c with
      | nil => simp [vecAdd]
      | cons z zs =>
        show (x + y + z) :: vecAdd (vecAdd xs ys) zs
            = (x + (y + z)) :: vecAdd xs (vecAdd ys zs)
        rw [add_assoc, ih]

theorem vecAdd_length (a b : List ℚ) (d : Nat) (ha : a.length = d)
    (hb : b.length = d) : (vecAdd a b).length = d := by
  simp [vecAdd, ha, hb]

theorem vecAdd_replicate_zero (a : List ℚ) (d : Nat) (h : a.length = d) :
    vecAdd a (List.replicate d 0) = a := by
  subst h
  induction a with
  | nil => rfl
  | cons x xs ih => simp [vecAdd, List.replicate_succ] at ih ⊢; exact ih

theorem replicate_zero_vecAdd (a : List ℚ) (d : Nat) (h : a.length = d) :
    vecAdd (List.replicate d 0) a = a := by
  subst h
  induction a with
  | nil => rfl
  | cons x xs ih => simp [vecAdd, List.replicate_succ] at ih ⊢; exact ih

theorem npRow_length (m : List (List ℚ)) (i d : Nat)
    (h : ∀ r ∈ m, r.length = d) : (npRow m i d).length = d := by
  unfold npRow
  rcases hm : m[i]? with _ | r
  · simp [List.getD, hm]
  · have : r ∈ m := List.getElem?_mem hm
    simp [List.getD, hm, h r this]

theorem vecSumZ_length (d : Nat) (rows : List (List ℚ))
    (h : ∀ r ∈ rows, r.length = d) : (vecSumZ d rows).length = d := by
  induction rows with
  | nil => simp [vecSumZ]
  | cons r rest ih =>
    have hr : r.length = d := h r (List.mem_cons_self r rest)
    have hrest : ∀ x ∈ rest, x.length = d := fun x hx => h x (List.mem_cons_of_mem r hx)
    simpa [vecSumZ] using vecAdd_length r _ d hr (ih hrest)

theorem foldl_vecAdd_eq_vecSum (init : List ℚ) (d : Nat) (rows : List (List ℚ))
    (hi : init.length = d) (hr : ∀ r ∈ rows, r.length = d) :
    rows.foldl vecAdd init = vecAdd init (vecSumZ d rows) := by
  induction rows generalizing init with
  | nil => simp [vecSumZ, vecAdd_replicate_zero init d hi]
  | cons r rest ih =>
    have hrl : r.length = d := hr r (List.mem_cons_self r rest)
    have hrest : ∀ x ∈ rest, x.length = d := fun x hx => hr x (List.mem_cons_of_mem r hx)
    have : (vecAdd init r).length = d := vecAdd_length init r d hi hrl
    calc (r :: rest).foldl vecAdd init
        = rest.foldl vecAdd (vecAdd init r) := rfl
      _ = vecAdd (vecAdd init r) (vecSumZ d rest) := ih (vecAdd init r) this hrest
      _ = vecAdd init (vecAdd r (vecSumZ d rest)) := vecAdd_assoc ..
      _ = vecAdd init (vecSumZ d (r :: rest)) := rfl

theorem optionMap_length {α β : Type} (f : α → Option β) (l : List α)
    (ys : List β) (h : optionMap f l = some ys) : ys.length = l.length := by
  induction l generalizing ys with
  | nil => simp [optionMap] at h; simp [← h]
  | cons a as ih =>
    rcases hfa : f a with _ | b
    · simp [optionMap, hfa] at h
    · rcases hrest : optionMap f as with _ | bs
      · simp [optionMap, hfa, hrest] at h
      · simp only [optionMap, hfa, hrest, Option.some.injEq] at h
        subst h
        simp [ih bs hrest]

theorem optionMap_getElem? {α β : Type} (f : α → Option β) (l : List α)
    (ys : List β) (h : optionMap f l = some ys) (i : Nat) (x : α)
    (hx : l[i]? = some x) : ∃ y, f x = some y ∧ ys[i]? = some y := by
  induction l generalizing ys i with
  | nil => simp at hx
  | cons a as ih =>
    rcases hfa : f a with _ | b
    · simp [optionMap, hfa] at h
    · rcases hrest : optionMap f as with _ | bs
      · simp [optionMap, hfa, hrest] at h
      · simp only [optionMap, hfa, hrest, Option.some.injEq] at h
        subst h
        cases i with
        | zero =>
          simp only [List.getElem?_cons_zero, Option.some.injEq] at hx
          subst hx
          exact ⟨b, hfa, by simp⟩
        | succ n =>
          simp only [List.getElem?_cons_succ] at hx
          obtain ⟨y, hy1, hy2⟩ := ih bs hrest n hx
          exact ⟨y, hy1, by simpa using hy2⟩

/-- C9: `FastTextKeyedVectors.__contains__` returns True for every store
(any bucket count, including 0) and every word — even ones `get_vector`
would raise `KeyError` on. -/
theorem ftContains_always_true (s : FastTextKeyedVectors) (word : String) :
    ftContains s word = true := rfl

/-! ## Growth (`update_ngrams_weights`) theorems -/

/-- C6: `update_ngrams_weights` only appends to `vectors_vocab`: the
pre-existing rows are kept bit-identical as a prefix, exactly
`len(vocab) - old_vocab_len` rows are appended, and `vectors_ngrams` is left
completely unchanged (in particular its row count stays equal to the bucket
count when it was equal before). -/
theorem update_ngrams_weights_append_only (hb : List Char → Nat)
    (s : FastTextKeyedVectors) (rand : Nat → List ℚ) (old_vocab_len : Nat)
    (s' : FastTextKeyedVectors)
    (h : update_ngrams_weights hb s rand old_vocab_len = some s') :
    s'.vectors_vocab.take s.vectors_vocab.length = s.vectors_vocab
    ∧ s'.vectors_vocab.length
        = s.vectors_vocab.length + (s.vocab.length - old_vocab_len)
    ∧ s'.vectors_ngrams = s.vectors_ngrams
    ∧ (s.vectors_ngrams.length = s.bucket →
        s'.vectors_ngrams.length = s.bucket) := by
  unfold update_ngrams_weights at h
  cases hp : _process_fasttext_vocab hb s.vocab s.min_n s.max_n s.bucket
      s.compatible_hash with
  | none => rw [hp] at h; simp at h
  | some bw =>
    rw [hp] at h
    simp only [Option.map_some', Option.some.injEq] at h
    rw [← h]
    refine ⟨?_, ?_, rfl, fun hh => hh⟩
    · simp [_pad_random, List.take_left]
    · simp [_pad_random]

/-- Witness for C6 at a concrete two-word store grown by one word. -/
theorem update_ngrams_weights_append_only_witness :
    update_ngrams_weights zeroBrokenHash w6store w6rand 1 = some w6store'
    ∧ (w6store'.vectors_vocab.take w6store.vectors_vocab.length
          = w6store.vectors_vocab
      ∧ w6store'.vectors_vocab.length
          = w6store.vectors_vocab.length + (w6store.vocab.length - 1)
      ∧ w6store'.vectors_ngrams = w6store.vectors_ngrams
      ∧ (w6store.vectors_ngrams.length = w6store.bucket →
          w6store'.vectors_ngrams.length = w6store.bucket)) := by
  have hEq : update_ngrams_weights zeroBrokenHash w6store w6rand 1
      = some w6store' := by rfl
  exact ⟨hEq,
    update_ngrams_weights_append_only zeroBrokenHash w6store w6rand 1 w6store' hEq⟩

/-! ## Composite-matrix (`adjust_vectors`) theorems -/

/-- C4 (amended): with `bucket = 0`, `adjust_vectors` returns the state
unchanged — it does not copy `vectors_vocab` into `vectors`, so the
composite matrix keeps whatever value it previously had; with `bucket ≠ 0`
it establishes, for every vocabulary index `i` holding word `w`,
`composite[i] = (VocabMatrix[i] + Σ BucketMatrix[b] over the word's ngram
bucket indices, duplicates counted) / (1 + number of bucket indices)`. -/
theorem adjust_vectors_spec (hb : List Char → Nat) (s : FastTextKeyedVectors)
    (hvv : ∀ r ∈ s.vectors_vocab, r.length = s.vector_size)
    (hng : ∀ r ∈ s.vectors_ngrams, r.length = s.vector_size) :
    (s.bucket = 0 → adjust_vectors hb s = some s)
    ∧ (s.bucket ≠ 0 → ∀ s', adjust_vectors hb s = some s' →
        s'.vectors.length = s.index2key.length
        ∧ ∀ i w, s.index2key[i]? = some w →
            ∃ hs, ft_ngram_hashes hb w s.min_n s.max_n s.bucket
                s.compatible_hash = some hs
              ∧ s'.vectors[i]? = some
                  ((vecAdd (npRow s.vectors_vocab i s.vector_size)
                      (vecSumZ s.vector_size
                        (hs.map fun nh =>
                          npRow s.vectors_ngrams nh s.vector_size))).map
                    (fun x => x / ((hs.length : ℚ) + 1)))) := by
  constructor
  · intro h0
    unfold adjust_vectors
    rw [if_pos h0]
  · intro h0 s' h
    unfold adjust_vectors at h
    rw [if_neg h0] at h
    rcases ho : optionMap (fun iw =>
        (ft_ngram_hashes hb iw.2 s.min_n s.max_n s.bucket s.compatible_hash).map
          fun ngram_hashes =>
            (ngram_hashes.foldl
                (fun acc nh => vecAdd acc (npRow s.vectors_ngrams nh s.vector_size))
                (npRow s.vectors_vocab iw.1 s.vector_size)).map
              (fun x => x / ((ngram_hashes.length : ℚ) + 1)))
        s.index2key.enum with _ | newVecs
    · rw [ho] at h; simp at h
    · rw [ho] at h
      simp only [Option.map_some', Option.some.injEq] at h
      subst h
      constructor
      · simpa [List.enum_length] using optionMap_length _ _ _ ho
      · intro i w hiw
        have henum : s.index2key.enum[i]? = some (i, w) := by
          rw [List.getElem?_enum, hiw]; rfl
        obtain ⟨y, hy1, hy2⟩ := optionMap_getElem? _ _ _ ho i (i, w) henum
        rcases hft : ft_ngram_hashes hb w s.min_n s.max_n s.bucket
            s.compatible_hash with _ | hs
        · rw [hft] at hy1; simp at hy1
        · rw [hft] at hy1
          simp only [Option.map_some', Option.some.injEq] at hy1
          refine ⟨hs, rfl, ?_⟩
          rw [hy2, ← hy1]
          have hfold : hs.foldl
              (fun acc nh => vecAdd acc (npRow s.vectors_ngrams nh s.vector_size))
              (npRow s.vectors_vocab i s.vector_size)
            = vecAdd (npRow s.vectors_vocab i s.vector_size)
                (vecSumZ s.vector_size
                  (hs.map fun nh => npRow s.vectors_ngrams nh s.vector_size)) := by
            rw [← List.foldl_map
              (fun nh => npRow s.vectors_ngrams nh s.vector_size) vecAdd]
            refine foldl_vecAdd_eq_vecSum _ s.vector_size _
              (npRow_length _ _ _ hvv) ?_
            intro r hr
            obtain ⟨nh, _, rfl⟩ := List.mem_map.mp hr
            exact npRow_length _ _ _ hng
          rw [hfold]

/-- C4 counterexample: a store with `bucket = 0`, `vectors = [[1]]`,
`vectors_vocab = [[2]]`.  `adjust_vectors` returns it unchanged, so
afterwards the composite matrix still differs from the own-token matrix —
the claimed "copies VocabMatrix, so afterwards CompositeMatrix equals
VocabMatrix" is false. -/
theorem adjust_vectors_bucket_zero_counterexample :
    adjust_vectors zeroBrokenHash c4store = some c4store
    ∧ c4store.vectors ≠ c4store.vectors_vocab := by
  refine ⟨rfl, ?_⟩
  simp only [c4store, ne_eq, List.cons.injEq, and_true]
  norm_num

/-- Witness for C4 at a concrete two-word store with two buckets. -/
theorem adjust_vectors_spec_witness :
    (∀ r ∈ w6store.vectors_vocab, r.length = w6store.vector_size)
    ∧ (∀ r ∈ w6store.vectors_ngrams, r.length = w6store.vector_size)
    ∧ ((w6store.bucket = 0 → adjust_vectors zeroBrokenHash w6store = some w6store)
      ∧ (w6store.bucket ≠ 0 → ∀ s',
          adjust_vectors zeroBrokenHash w6store = some s' →
          s'.vectors.length = w6store.index2key.length
          ∧ ∀ i w, w6store.index2key[i]? = some w →
              ∃ hs, ft_ngram_hashes zeroBrokenHash w w6store.min_n w6store.max_n
                  w6store.bucket w6store.compatible_hash = some hs
                ∧ s'.vectors[i]? = some
                    ((vecAdd (npRow w6store.vectors_vocab i w6store.vector_size)
                        (vecSumZ w6store.vector_size
                          (hs.map fun nh =>
                            npRow w6store.vectors_ngrams nh w6store.vector_size))).map
                      (fun x => x / ((hs.length : ℚ) + 1))))) :=
  ⟨by decide, by decide,
    adjust_vectors_spec zeroBrokenHash w6store (by decide) (by decide)⟩

/-! ## Lookup (`get_vector`) theorems -/

/-- C5: for a word absent from the vocabulary: with `bucket = 0`,
`get_vector` raises `KeyError`; with `bucket ≠ 0` the ngram hashing always
succeeds (no error is possible), and the result is the zero vector when the
ngram list is empty, else the average of the `vectors_ngrams` rows selected
by the word's ngram hashes (duplicates counted). -/
theorem get_vector_oov_spec (hb : List Char → Nat) (s : FastTextKeyedVectors)
    (word : String)
    (habs : s.vocab.find? (fun p => p.1 == word) = none)
    (hng : ∀ r ∈ s.vectors_ngrams, r.length = s.vector_size) :
    (s.bucket = 0 → get_vector hb s word
        = .error "KeyError: cannot calculate vector for OOV word without ngrams")
    ∧ (s.bucket ≠ 0 →
        (∃ hs, ft_ngram_hashes hb word s.min_n s.max_n s.bucket
            s.compatible_hash = some hs)
        ∧ ∀ hs, ft_ngram_hashes hb word s.min_n s.max_n s.bucket
              s.compatible_hash = some hs →
            (hs = [] →
              get_vector hb s word = .ok (List.replicate s.vector_size 0))
            ∧ (hs ≠ [] → get_vector hb s word = .ok
                ((vecSumZ s.vector_size
                    (hs.map fun nh => npRow s.vectors_ngrams nh s.vector_size)).map
                  (fun x => x / (hs.length : ℚ))))) := by
  constructor
  · intro h0
    simp [get_vector, habs, h0]
  · intro h0
    refine ⟨⟨_, ft_ngram_hashes_pos hb word s.min_n s.max_n s.bucket
        s.compatible_hash h0⟩, ?_⟩
    intro hs hft
    constructor
    · intro he
      subst he
      simp [get_vector, habs, h0, hft]
    · intro hne
      have hlen : hs.length ≠ 0 := fun hl => hne (List.length_eq_zero.mp hl)
      have hfold : hs.foldl
          (fun acc nh => vecAdd acc (npRow s.vectors_ngrams nh s.vector_size))
          (List.replicate s.vector_size 0)
        = vecSumZ s.vector_size
            (hs.map fun nh => npRow s.vectors_ngrams nh s.vector_size) := by
        have hrows : ∀ r ∈ hs.map fun nh =>
            npRow s.vectors_ngrams nh s.vector_size, r.length = s.vector_size := by
          intro r hr
          obtain ⟨nh, _, rfl⟩ := List.mem_map.mp hr
          exact npRow_length _ _ _ hng
        rw [← List.foldl_map
          (fun nh => npRow s.vectors_ngrams nh s.vector_size) vecAdd]
        rw [foldl_vecAdd_eq_vecSum _ s.vector_size _ (by simp) hrows]
        exact replicate_zero_vecAdd _ s.vector_size
          (vecSumZ_length s.vector_size _ hrows)
      simp [get_vector, habs, h0, hft, hlen, hfold]

/-- Witness for C5 at a concrete empty-vocabulary store with two buckets. -/
theorem get_vector_oov_spec_witness :
    w5store.vocab.find? (fun p => p.1 == "a") = none
    ∧ (∀ r ∈ w5store.vectors_ngrams, r.length = w5store.vector_size)
    ∧ ((w5store.bucket = 0 → get_vector zeroBrokenHash w5store "a"
          = .error "KeyError: cannot calculate vector for OOV word without ngrams")
      ∧ (w5store.bucket ≠ 0 →
          (∃ hs, ft_ngram_hashes zeroBrokenHash "a" w5store.min_n w5store.max_n
              w5store.bucket w5store.compatible_hash = some hs)
          ∧ ∀ hs, ft_ngram_hashes zeroBrokenHash "a" w5store.min_n w5store.max_n
                w5store.bucket w5store.compatible_hash = some hs →
              (hs = [] → get_vector zeroBrokenHash w5store "a"
                  = .ok (List.replicate w5store.vector_size 0))
              ∧ (hs ≠ [] → get_vector zeroBrokenHash w5store "a" = .ok
                  ((vecSumZ w5store.vector_size
                      (hs.map fun nh =>
                        npRow w5store.vectors_ngrams nh w5store.vector_size)).map
                    (fun x => x / (hs.length : ℚ)))))) :=
  ⟨by decide, by decide,
    get_vector_oov_spec zeroBrokenHash w5store "a" (by decide) (by decide)⟩

/-! ## Migration (`_unpack`) lemmas -/

theorem swapRowsP_length {α : Type} (m : List α) (h i : Nat) :
    (swapRowsP m h i).length = m.length := by
  rcases hm1 : m[h]? with _ | a <;> rcases hm2 : m[i]? with _ | b <;>
    simp [swapRowsP, hm1, hm2]

theorem applySwaps_length {α : Type} (S : List (Nat × Nat)) (m : List α) :
    (applySwaps S m).length = m.length := by
  induction S generalizing m with
  | nil => rfl
  | cons p rest ih =>
    show (applySwaps rest (swapRowsP m p.1 p.2)).length = m.length
    rw [ih, swapRowsP_length]

theorem swapRowsP_getElem?_fst {α : Type} (m : List α) (h i : Nat)
    (hh : h < m.length) (hi : i < m.length) :
    (swapRowsP m h i)[h]? = m[i]? := by
  obtain ⟨a, ha⟩ : ∃ a, m[h]? = some a := by
    simp [List.getElem?_eq_getElem hh]
  obtain ⟨b, hbv⟩ : ∃ b, m[i]? = some b := by
    simp [List.getElem?_eq_getElem hi]
  simp only [swapRowsP, ha, hbv]
  by_cases hhi : h = i
  · subst hhi
    have hab : a = b := Option.some.inj (ha.symm.trans hbv)
    subst hab
    exact List.getElem?_set_self (by simpa using hh)
  · rw [List.getElem?_set_ne (fun e => hhi e.symm)]
    exact List.getElem?_set_self (by simpa using hh)

theorem swapRowsP_getElem?_snd {α : Type} (m : List α) (h i : Nat)
    (hh : h < m.length) (hi : i < m.length) :
    (swapRowsP m h i)[i]? = m[h]? := by
  obtain ⟨a, ha⟩ : ∃ a, m[h]? = some a := by
    simp [List.getElem?_eq_getElem hh]
  obtain ⟨b, hbv⟩ : ∃ b, m[i]? = some b := by
    simp [List.getElem?_eq_getElem hi]
  simp only [swapRowsP, ha, hbv]
  exact List.getElem?_set_self (by simpa using hi)

theorem swapRowsP_getElem?_other {α : Type} (m : List α) (h i j : Nat)
    (hj1 : j ≠ h) (hj2 : j ≠ i) :
    (swapRowsP m h i)[j]? = m[j]? := by
  rcases hm1 : m[h]? with _ | a <;> rcases hm2 : m[i]? with _ | b <;>
    simp only [swapRowsP, hm1, hm2]
  rw [List.getElem?_set_ne (fun e => hj2 e.symm),
    List.getElem?_set_ne (fun e => hj1 e.symm)]

theorem applySwaps_getElem? {α : Type} (S : List (Nat × Nat)) (m : List α)
    (hd : RowDisjoint S)
    (hb : ∀ p ∈ S, p.1 < m.length ∧ p.2 < m.length) (j : Nat) :
    (applySwaps S m)[j]? = swapSpec S m j := by
  induction S generalizing m with
  | nil => rfl
  | cons p rest ih =>
    obtain ⟨hdp, hd'⟩ := List.pairwise_cons.mp hd
    obtain ⟨hp1, hp2⟩ := hb p (List.mem_cons_self p rest)
    have hb' : ∀ q ∈ rest, q.1 < (swapRowsP m p.1 p.2).length
        ∧ q.2 < (swapRowsP m p.1 p.2).length := by
      rw [swapRowsP_length]
      exact fun q hq => hb q (List.mem_cons_of_mem p hq)
    have hstep : applySwaps (p :: rest) m
        = applySwaps rest (swapRowsP m p.1 p.2) := rfl
    rw [hstep, ih (swapRowsP m p.1 p.2) hd' hb']
    by_cases hj1 : p.1 = j
    · have hnone1 : rest.find? (fun q => q.1 == j) = none :=
        List.find?_eq_none.mpr fun q hq => by
          simp only [beq_iff_eq]
          exact fun e => (hdp q hq).1 (hj1.trans e.symm)
      have hnone2 : rest.find? (fun q => q.2 == j) = none :=
        List.find?_eq_none.mpr fun q hq => by
          simp only [beq_iff_eq]
          exact fun e => (hdp q hq).2.1 (hj1.trans e.symm)
      rw [show swapSpec rest (swapRowsP m p.1 p.2) j
          = (swapRowsP m p.1 p.2)[j]? from by
        simp [swapSpec, hnone1, hnone2]]
      rw [show swapSpec (p :: rest) m j = m[p.2]? from by
        simp [swapSpec, hj1]]
      subst hj1
      exact swapRowsP_getElem?_fst m p.1 p.2 hp1 hp2
    · by_cases hj2 : p.2 = j
      · have hnone1 : rest.find? (fun q => q.1 == j) = none :=
          List.find?_eq_none.mpr fun q hq => by
            simp only [beq_iff_eq]
            exact fun e => (hdp q hq).2.2.1 (hj2.trans e.symm)
        have hnone2 : rest.find? (fun q => q.2 == j) = none :=
          List.find?_eq_none.mpr fun q hq => by
            simp only [beq_iff_eq]
            exact fun e => (hdp q hq).2.2.2 (hj2.trans e.symm)
        rw [show swapSpec rest (swapRowsP m p.1 p.2) j
            = (swapRowsP m p.1 p.2)[j]? from by
          simp [swapSpec, hnone1, hnone2]]
        rw [show swapSpec (p :: rest) m j = m[p.1]? from by
          simp [swapSpec, hnone1, hj1, hj2]]
        subst hj2
        exact swapRowsP_getElem?_snd m p.1 p.2 hp1 hp2
      · rcases hf1 : rest.find? (fun q => q.1 == j) with _ | q
        · rcases hf2 : rest.find? (fun q => q.2 == j) with _ | q
          · rw [show swapSpec rest (swapRowsP m p.1 p.2) j
                = (swapRowsP m p.1 p.2)[j]? from by
              simp [swapSpec, hf1, hf2]]
            rw [show swapSpec (p :: rest) m j = m[j]? from by
              simp [swapSpec, hf1, hf2, hj1, hj2]]
            exact swapRowsP_getElem?_other m p.1 p.2 j
              (fun e => hj1 e.symm) (fun e => hj2 e.symm)
          · have hq : q ∈ rest := List.mem_of_find?_eq_some hf2
            have hrel := hdp q hq
            rw [show swapSpec rest (swapRowsP m p.1 p.2) j
                = (swapRowsP m p.1 p.2)[q.1]? from by
              simp [swapSpec, hf1, hf2]]
            rw [show swapSpec (p :: rest) m j = m[q.1]? from by
              simp [swapSpec, hf1, hf2, hj1, hj2]]
            exact swapRowsP_getElem?_other m p.1 p.2 q.1
              (fun e => hrel.1 e.symm) (fun e => hrel.2.2.1 e.symm)
        · have hq : q ∈ rest := List.mem_of_find?_eq_some hf1
          have hrel := hdp q hq
          rw [show swapSpec rest (swapRowsP m p.1 p.2) j
              = (swapRowsP m p.1 p.2)[q.2]? from by
            simp [swapSpec, hf1]]
          rw [show swapSpec (p :: rest) m j = m[q.2]? from by
            simp [swapSpec, hf1, hj1, hj2]]
          exact swapRowsP_getElem?_other m p.1 p.2 q.2
            (fun e => hrel.2.1 e.symm) (fun e => hrel.2.2.2 e.symm)

theorem foldlM_swaps_ok {α : Type} (S : List (Nat × Nat)) (m : List α)
    (hb : ∀ p ∈ S, p.1 < m.length ∧ p.2 < m.length)
    (hne : ∀ p ∈ S, p.1 ≠ p.2) :
    S.foldlM (fun acc p =>
        if p.1 = p.2 then Except.error "AssertionError: h != i"
        else swapRowsE acc p.1 p.2) m
      = Except.ok (applySwaps S m) := by
  induction S generalizing m with
  | nil => rfl
  | cons p rest ih =>
    obtain ⟨hp1, hp2⟩ := hb p (List.mem_cons_self p rest)
    have hpe := hne p (List.mem_cons_self p rest)
    rw [List.foldlM_cons, if_neg hpe]
    have hE : swapRowsE m p.1 p.2 = Except.ok (swapRowsP m p.1 p.2) := by
      obtain ⟨a, ha⟩ : ∃ a, m[p.1]? = some a := by
        simp [List.getElem?_eq_getElem hp1]
      obtain ⟨b, hbv⟩ : ∃ b, m[p.2]? = some b := by
        simp [List.getElem?_eq_getElem hp2]
      simp [swapRowsE, swapRowsP, ha, hbv]
    rw [hE]
    show rest.foldlM _ (swapRowsP m p.1 p.2) = _
    rw [ih (swapRowsP m p.1 p.2) ?_ ?_]
    · rfl
    · rw [swapRowsP_length]
      exact fun q hq => hb q (List.mem_cons_of_mem p hq)
    · exact fun q hq => hne q (List.mem_cons_of_mem p hq)

theorem find?_eq_of_perm_of_unique {β : Type} {p : β → Bool} {S S' : List β}
    (hperm : S.Perm S')
    (hu : ∀ x ∈ S, ∀ y ∈ S, p x = true → p y = true → x = y) :
    S.find? p = S'.find? p := by
  rcases hS : S.find? p with _ | x
  · rcases hS' : S'.find? p with _ | y
    · rfl
    · exfalso
      have hy := List.find?_some hS'
      have hmem : y ∈ S := hperm.mem_iff.mpr (List.mem_of_find?_eq_some hS')
      exact (List.find?_eq_none.mp hS y hmem) hy
  · have hx := List.find?_some hS
    have hmemx : x ∈ S := List.mem_of_find?_eq_some hS
    rcases hS' : S'.find? p with _ | y
    · exfalso
      exact (List.find?_eq_none.mp hS' x (hperm.mem_iff.mp hmemx)) hx
    · have hy := List.find?_some hS'
      have hmemy : y ∈ S := hperm.mem_iff.mpr (List.mem_of_find?_eq_some hS')
      rw [hu x hmemx y hmemy hx hy]

theorem rowDisjoint_symm :
    ∀ {p q : Nat × Nat},
      (p.1 ≠ q.1 ∧ p.1 ≠ q.2 ∧ p.2 ≠ q.1 ∧ p.2 ≠ q.2) →
      (q.1 ≠ p.1 ∧ q.1 ≠ p.2 ∧ q.2 ≠ p.1 ∧ q.2 ≠ p.2) :=
  fun h => ⟨h.1.symm, h.2.2.1.symm, h.2.1.symm, h.2.2.2.symm⟩

theorem rowDisjoint_unique_fst {S : List (Nat × Nat)} (hd : RowDisjoint S)
    (j : Nat) :
    ∀ x ∈ S, ∀ y ∈ S, (x.1 == j) = true → (y.1 == j) = true → x = y := by
  intro x hx y hy hxj hyj
  by_contra hne
  have hrel := hd.forall (fun _ _ h => rowDisjoint_symm h) hx hy hne
  rw [beq_iff_eq] at hxj hyj
  exact hrel.1 (hxj.trans hyj.symm)

theorem rowDisjoint_unique_snd {S : List (Nat × Nat)} (hd : RowDisjoint S)
    (j : Nat) :
    ∀ x ∈ S, ∀ y ∈ S, (x.2 == j) = true → (y.2 == j) = true → x = y := by
  intro x hx y hy hxj hyj
  by_contra hne
  have hrel := hd.forall (fun _ _ h => rowDisjoint_symm h) hx hy hne
  rw [beq_iff_eq] at hxj hyj
  exact hrel.2.2.2 (hxj.trans hyj.symm)

theorem swapSpec_perm {α : Type} {S S' : List (Nat × Nat)} (m : List α)
    (hperm : S.Perm S') (hd : RowDisjoint S) (j : Nat) :
    swapSpec S m j = swapSpec S' m j := by
  unfold swapSpec
  rw [find?_eq_of_perm_of_unique hperm (rowDisjoint_unique_fst hd j),
    find?_eq_of_perm_of_unique hperm (rowDisjoint_unique_snd hd j)]

theorem mem_swapPairs_iff (h2i : List (Nat × Nat)) (r : Nat) (p : Nat × Nat) :
    p ∈ swapPairs h2i r ↔ p ∈ h2i ∧ ((p.1 < p.2 ∧ p.2 < r) ∨ r ≤ p.1) := by
  simp only [swapPairs, List.mem_append, List.mem_filter, Bool.and_eq_true,
    decide_eq_true_eq]
  tauto

theorem find?_fst_self {S : List (Nat × Nat)} (hd : RowDisjoint S)
    {p : Nat × Nat} (hp : p ∈ S) :
    S.find? (fun q => q.1 == p.1) = some p := by
  induction S with
  | nil => cases hp
  | cons q rest ih =>
    obtain ⟨hdq, hd'⟩ := List.pairwise_cons.mp hd
    rcases List.mem_cons.mp hp with rfl | hp'
    · exact List.find?_cons_of_pos _ (by simp)
    · have hfalse : (q.1 == p.1) = false := by
        simp only [beq_eq_false_iff_ne, ne_eq]
        exact (hdq p hp').1
      simp only [List.find?, hfalse]
      exact ih hd' hp'

theorem pad_random_length {α : Type} (m : List α) (n : Nat) (rand : Nat → α) :
    (_pad_random m n rand).length = m.length + n := by
  simp [_pad_random]

theorem pad_random_getElem?_left {α : Type} (m : List α) (n : Nat)
    (rand : Nat → α) (k : Nat) (hk : k < m.length) :
    (_pad_random m n rand)[k]? = m[k]? := by
  unfold _pad_random
  rw [List.getElem?_append, if_pos hk]

/-! ## Migration theorems (C1, C10) -/

/-- C1 (amended): `_unpack` swaps exactly the pairs (h, i) of the map with
`h < i < r` or `h ≥ r` (`r` the packed row count) — the code keys the second
condition on the hash `h`, not on `i` as the spec's step 4 states — one swap
per selected pair, in map order, over the padded matrix; when the pairs of
the map point into the packed region (`i < r`), the selected pairs touch
pairwise-disjoint rows, and no identity pair's row is touched by a selected
pair, then afterwards row `h` holds the vector originally stored at packed
row `i` for every selected or identity pair, and the result is the same for
every reordering of the map.  (Without the disjointness proviso the
postcondition and the order-independence both fail; see the
counterexample.) -/
theorem unpack_swap_semantics {α : Type} (m : List α) (num_rows : Nat)
    (h2i : List (Nat × Nat)) (rand : Nat → α)
    (hlt : m.length < num_rows)
    (hwf : ∀ p ∈ h2i, p.2 < m.length ∧ p.1 < num_rows)
    (hd : RowDisjoint (swapPairs h2i m.length))
    (hid : ∀ p ∈ h2i, p.1 = p.2 →
      ∀ q ∈ swapPairs h2i m.length, p.1 ≠ q.1 ∧ p.1 ≠ q.2) :
    _unpack m num_rows h2i rand
      = Except.ok (applySwaps (swapPairs h2i m.length)
          (_pad_random m (num_rows - m.length) rand))
    ∧ (∀ out, _unpack m num_rows h2i rand = Except.ok out →
        ∀ p ∈ h2i,
          ((p.1 < p.2 ∧ p.2 < m.length) ∨ m.length ≤ p.1 ∨ p.1 = p.2) →
          out[p.1]? = m[p.2]?)
    ∧ (∀ h2i', h2i'.Perm h2i →
        _unpack m num_rows h2i' rand = _unpack m num_rows h2i rand) := by
  have hbS : ∀ p ∈ swapPairs h2i m.length,
      p.1 < (_pad_random m (num_rows - m.length) rand).length
      ∧ p.2 < (_pad_random m (num_rows - m.length) rand).length := by
    intro p hp
    obtain ⟨hmem, _⟩ := (mem_swapPairs_iff h2i m.length p).mp hp
    obtain ⟨hi2, hi1⟩ := hwf p hmem
    rw [pad_random_length]
    omega
  have hneS : ∀ p ∈ swapPairs h2i m.length, p.1 ≠ p.2 := by
    intro p hp
    obtain ⟨hmem, hsel⟩ := (mem_swapPairs_iff h2i m.length p).mp hp
    obtain ⟨hi2, _⟩ := hwf p hmem
    rcases hsel with ⟨h1, _⟩ | h1 <;> omega
  have hmain : _unpack m num_rows h2i rand
      = Except.ok (applySwaps (swapPairs h2i m.length)
          (_pad_random m (num_rows - m.length) rand)) := by
    unfold _unpack
    rw [if_neg (Nat.ne_of_lt hlt), if_neg (not_le.mpr hlt)]
    exact foldlM_swaps_ok _ _ hbS hneS
  refine ⟨hmain, ?_, ?_⟩
  · intro out hout p hp hcase
    have hout' : out = applySwaps (swapPairs h2i m.length)
        (_pad_random m (num_rows - m.length) rand) := by
      rw [hmain] at hout
      exact (Except.ok.inj hout).symm
    subst hout'
    rw [applySwaps_getElem? _ _ hd hbS p.1]
    obtain ⟨hwf2, hwf1⟩ := hwf p hp
    rcases hcase with hA | hB | hI
    · have hpS : p ∈ swapPairs h2i m.length :=
        (mem_swapPairs_iff h2i m.length p).mpr ⟨hp, Or.inl hA⟩
      unfold swapSpec
      rw [find?_fst_self hd hpS]
      exact pad_random_getElem?_left m _ rand p.2 hwf2
    · have hpS : p ∈ swapPairs h2i m.length :=
        (mem_swapPairs_iff h2i m.length p).mpr ⟨hp, Or.inr hB⟩
      unfold swapSpec
      rw [find?_fst_self hd hpS]
      exact pad_random_getElem?_left m _ rand p.2 hwf2
    · have h1 : (swapPairs h2i m.length).find? (fun q => q.1 == p.1) = none :=
        List.find?_eq_none.mpr fun q hq => by
          simp only [beq_iff_eq]
          exact fun e => (hid p hp hI q hq).1 e.symm
      have h2 : (swapPairs h2i m.length).find? (fun q => q.2 == p.1) = none :=
        List.find?_eq_none.mpr fun q hq => by
          simp only [beq_iff_eq]
          exact fun e => (hid p hp hI q hq).2 e.symm
      unfold swapSpec
      rw [h1, h2, hI]
      exact pad_random_getElem?_left m _ rand p.2 hwf2
  · intro h2i' hperm
    have hSperm : (swapPairs h2i' m.length).Perm (swapPairs h2i m.length) :=
      (hperm.filter _).append (hperm.filter _)
    have hd' : RowDisjoint (swapPairs h2i' m.length) :=
      (hSperm.pairwise_iff (fun h => rowDisjoint_symm h)).mpr hd
    have hbS' : ∀ p ∈ swapPairs h2i' m.length,
        p.1 < (_pad_random m (num_rows - m.length) rand).length
        ∧ p.2 < (_pad_random m (num_rows - m.length) rand).length :=
      fun p hp => hbS p (hSperm.mem_iff.mp hp)
    have hneS' : ∀ p ∈ swapPairs h2i' m.length, p.1 ≠ p.2 :=
      fun p hp => hneS p (hSperm.mem_iff.mp hp)
    have hmain' : _unpack m num_rows h2i' rand
        = Except.ok (applySwaps (swapPairs h2i' m.length)
            (_pad_random m (num_rows - m.length) rand)) := by
      unfold _unpack
      rw [if_neg (Nat.ne_of_lt hlt), if_neg (not_le.mpr hlt)]
      exact foldlM_swaps_ok _ _ hbS' hneS'
    rw [hmain, hmain']
    congr 1
    apply List.ext_getElem?
    intro n
    rw [applySwaps_getElem? _ _ hd' hbS' n, applySwaps_getElem? _ _ hd hbS n]
    exact swapSpec_perm _ hSperm hd' n

/-- Witness for C1: `m = [10,20,30]`, 5 buckets, map `{3: 0, 1: 2}` — one
pointer into the appended region and one internal rearrangement, with
disjoint rows. -/
theorem unpack_swap_semantics_witness :
    (([10, 20, 30] : List Nat).length < 5
      ∧ (∀ p ∈ [((3 : Nat), (0 : Nat)), (1, 2)],
          p.2 < ([10, 20, 30] : List Nat).length ∧ p.1 < 5)
      ∧ RowDisjoint (swapPairs [(3, 0), (1, 2)] ([10, 20, 30] : List Nat).length)
      ∧ (∀ p ∈ [((3 : Nat), (0 : Nat)), (1, 2)], p.1 = p.2 →
          ∀ q ∈ swapPairs [(3, 0), (1, 2)] ([10, 20, 30] : List Nat).length,
            p.1 ≠ q.1 ∧ p.1 ≠ q.2))
    ∧ (_unpack [10, 20, 30] 5 [(3, 0), (1, 2)] cexRand
        = Except.ok (applySwaps (swapPairs [(3, 0), (1, 2)] ([10, 20, 30] : List Nat).length)
            (_pad_random [10, 20, 30] (5 - ([10, 20, 30] : List Nat).length) cexRand))
      ∧ (∀ out, _unpack [10, 20, 30] 5 [(3, 0), (1, 2)] cexRand = Except.ok out →
          ∀ p ∈ [((3 : Nat), (0 : Nat)), (1, 2)],
            ((p.1 < p.2 ∧ p.2 < ([10, 20, 30] : List Nat).length)
              ∨ ([10, 20, 30] : List Nat).length ≤ p.1 ∨ p.1 = p.2) →
            out[p.1]? = ([10, 20, 30] : List Nat)[p.2]?)
      ∧ (∀ h2i', h2i'.Perm [(3, 0), (1, 2)] →
          _unpack [10, 20, 30] 5 h2i' cexRand
            = _unpack [10, 20, 30] 5 [(3, 0), (1, 2)] cexRand)) :=
  ⟨⟨by decide, by decide, by decide, by decide⟩,
    unpack_swap_semantics [10, 20, 30] 5 [(3, 0), (1, 2)] cexRand
      (by decide) (by decide) (by decide) (by decide)⟩

/-- C1 counterexample: with the 3-cycle map `{2: 0, 1: 2, 0: 1}` (packed
rows 3, 4 buckets) the claimed postcondition fails: the map holds the pair
`(0, 1)`, yet output row 0 is 30 — the vector from packed row 2, not packed
row 1 (which holds 20).  The swaps interfere, and applying them in another
map order gives yet another matrix. -/
theorem unpack_postcondition_counterexample :
    ((0, 1) ∈ ([(2, 0), (1, 2), (0, 1)] : List (Nat × Nat))
      ∧ _unpack [10, 20, 30] 4 [(2, 0), (1, 2), (0, 1)] cexRand
          = Except.ok [30, 10, 20, 100])
    ∧ ¬ (([30, 10, 20, 100] : List Nat)[(0 : Nat)]?
          = ([10, 20, 30] : List Nat)[(1 : Nat)]?) :=
  ⟨⟨by decide, by rfl⟩, by decide⟩

/-- C10 (amended): the two `_unpack` implementations agree whenever the
packed matrix is not strictly smaller than `num_rows` (already-natural input
is returned unchanged by both; a larger packed matrix trips the same assert
in both); when `rows < num_rows` they generally return different matrices,
because `_unpack_copy` draws `num_rows` fresh random rows where `_unpack`
draws `num_rows - rows`, placing different stream values at different
positions. -/
theorem unpack_eq_unpack_copy_of_no_growth {α : Type} (m : List α)
    (num_rows : Nat) (h2i : List (Nat × Nat)) (rand : Nat → α)
    (h : num_rows ≤ m.length) :
    _unpack m num_rows h2i rand = _unpack_copy m num_rows h2i rand := by
  by_cases he : m.length = num_rows
  · unfold _unpack _unpack_copy
    rw [if_pos he, if_pos he]
  · unfold _unpack _unpack_copy
    rw [if_neg he, if_neg he, if_pos h, if_pos h]

/-- Witness for C10's agreement case at an already-natural 2-row matrix. -/
theorem unpack_eq_unpack_copy_of_no_growth_witness :
    2 ≤ ([10, 20] : List Nat).length
    ∧ _unpack [10, 20] 2 [(0, 1)] cexRand
        = _unpack_copy [10, 20] 2 [(0, 1)] cexRand :=
  ⟨by decide,
    unpack_eq_unpack_copy_of_no_growth [10, 20] 2 [(0, 1)] cexRand (by decide)⟩

/-- C10 counterexample: `m = [10]`, `num_rows = 2`, map `{0: 0}`, same
seed.  `_unpack` pads one fresh row and swaps nothing, giving `[10, 100]`;
`_unpack_copy` draws two fresh rows `[100, 101]` and overwrites row 0 with
packed row 0, giving `[10, 101]`.  The matrices differ. -/
theorem unpack_vs_unpack_copy_counterexample :
    (_unpack [10] 2 [(0, 0)] cexRand = Except.ok [10, 100]
      ∧ _unpack_copy [10] 2 [(0, 0)] cexRand = Except.ok [10, 101])
    ∧ ([10, 100] : List Nat) ≠ [10, 101] :=
  ⟨⟨by rfl, by rfl⟩, by decide⟩

end Gensim
